import Mathlib

/-
Verification of the cs263-python-multithreading benchmark harness.

The definitions below are a shallow embedding of the Python sources under
src/benchmarks/.  Pure Python functions become Lean functions; the threaded
strategies write to disjoint slots of a pre-allocated result list, so any
thread interleaving yields the same final list and they are embedded as a
sequential fold over the workers; Python exceptions (IndexError from an
out-of-range list access) are embedded as Option, with none marking the
raised exception; Python None placeholders in result lists become none of
an Option payload type.  Real numbers produced by the workloads are
embedded as rationals.
-/

/-- Embedding of Python `range(start, stop, step)` for a positive step, as
iterated by the worker loops `for i in range(idx, len(xs), num_threads)`.
The fuel argument bounds the recursion; `stop - start` steps suffice because
each iteration advances `start` by `step ≥ 1`. -/
def rangeStepAux : Nat → Nat → Nat → Nat → List Nat
  | 0, _, _, _ => []
  | fuel + 1, start, stop, step =>
    if start < stop then start :: rangeStepAux fuel (start + step) stop step else []

/-- Python `range(start, stop, step)` with `step ≥ 1` (the only way the
benchmark code calls it). -/
def rangeStep (start stop step : Nat) : List Nat :=
  rangeStepAux (stop - start) start stop step

theorem mem_rangeStepAux (step : Nat) (hstep : 1 ≤ step) :
    ∀ (fuel start stop i : Nat), stop - start ≤ fuel →
      (i ∈ rangeStepAux fuel start stop step ↔
        start ≤ i ∧ i < stop ∧ (i - start) % step = 0) := by
  intro fuel
  induction fuel with
  | zero =>
    intro start stop i hf
    simp only [rangeStepAux, List.not_mem_nil, false_iff]
    omega
  | succ n ih =>
    intro start stop i hf
    simp only [rangeStepAux]
    by_cases hlt : start < stop
    · rw [if_pos hlt]
      rw [List.mem_cons, ih (start + step) stop i (by omega)]
      constructor
      · rintro (rfl | ⟨h1, h2, h3⟩)
        · exact ⟨le_refl _, hlt, by simp⟩
        · refine ⟨by omega, h2, ?_⟩
          have : i - start = (i - (start + step)) + step := by omega
          rw [this, Nat.add_mod, h3, Nat.mod_self]
          simp
      · rintro ⟨h1, h2, h3⟩
        rcases Nat.eq_or_lt_of_le h1 with rfl | hgt
        · exact Or.inl rfl
        · right
          refine ⟨?_, h2, ?_⟩
          · -- step divides i - start, which is positive, so i - start ≥ step
            have hdvd : step ∣ (i - start) := Nat.dvd_of_mod_eq_zero h3
            have : step ≤ i - start := Nat.le_of_dvd (by omega) hdvd
            omega
          · have hdvd : step ∣ (i - start) := Nat.dvd_of_mod_eq_zero h3
            obtain ⟨k, hk⟩ := hdvd
            have hk1 : 1 ≤ k := by
              rcases Nat.eq_zero_or_pos k with rfl | h
              · omega
              · exact h
            obtain ⟨k', rfl⟩ : ∃ k', k = k' + 1 := ⟨k - 1, by omega⟩
            have hk' : i - start = step * k' + step := by rw [hk]; ring
            have : i - (start + step) = step * k' := by omega
            rw [this]
            simp [Nat.mul_mod_right]
    · rw [if_neg hlt]
      simp only [List.not_mem_nil, false_iff]
      omega

theorem mem_rangeStep (start stop step i : Nat) (hstep : 1 ≤ step) :
    i ∈ rangeStep start stop step ↔
      start ≤ i ∧ i < stop ∧ (i - start) % step = 0 :=
  mem_rangeStepAux step hstep _ start stop i (le_refl _)

/-- The round-robin assignment used by every threaded strategy in the
repository: worker `w` of `W` iterates `range(w, N, W)`
(src/benchmarks/file_read.py threaded_read, src/benchmarks/num_threads.py
multi_threaded, src/benchmarks/matmul.py threaded_matmul). -/
def roundRobinAssign (N W w : Nat) : List Nat :=
  rangeStep w N W

/-- The chunk size `(n_rows + num_threads - 1) // num_threads` computed by
src/benchmarks/single_matmul.py multithread_matmul. -/
def chunkSize (N W : Nat) : Nat :=
  (N + W - 1) / W

/-- The contiguous-chunk assignment of src/benchmarks/single_matmul.py
multithread_matmul: worker `w` covers rows
`[w*chunk, min((w+1)*chunk, N))`; a worker whose start is at or past `N`
is never spawned, i.e. receives the empty range. -/
def contiguousAssign (N W w : Nat) : List Nat :=
  rangeStep (w * chunkSize N W) (min ((w + 1) * chunkSize N W) N) 1

theorem mem_roundRobinAssign (N W w i : Nat) (hW : 1 ≤ W) :
    i ∈ roundRobinAssign N W w ↔ w ≤ i ∧ i < N ∧ (i - w) % W = 0 :=
  mem_rangeStep w N W i hW

theorem mem_contiguousAssign (N W w i : Nat) :
    i ∈ contiguousAssign N W w ↔
      w * chunkSize N W ≤ i ∧ i < min ((w + 1) * chunkSize N W) N :=
  by
  rw [contiguousAssign, mem_rangeStep _ _ _ _ (le_refl 1)]
  omega

/-- For `w < W`, round-robin membership is exactly `i % W = w`. -/
theorem mem_roundRobinAssign_iff_mod (N W w i : Nat) (hW : 1 ≤ W) (hw : w < W) :
    i ∈ roundRobinAssign N W w ↔ i < N ∧ i % W = w := by
  rw [mem_roundRobinAssign N W w i hW]
  constructor
  · rintro ⟨h1, h2, h3⟩
    refine ⟨h2, ?_⟩
    obtain ⟨k, hk⟩ := Nat.dvd_of_mod_eq_zero h3
    have : i = w + W * k := by omega
    rw [this, Nat.add_mul_mod_self_left]
    exact Nat.mod_eq_of_lt hw
  · rintro ⟨h1, rfl⟩
    refine ⟨Nat.mod_le i W, h1, ?_⟩
    conv_lhs => rw [show i - i % W = W * (i / W) by
      have := Nat.div_add_mod i W; omega]
    simp [Nat.mul_mod_right]

/-- `N ≤ W * ceil(N/W)`: the W contiguous chunks cover all N indices. -/
theorem chunkSize_covers (N W : Nat) (hW : 1 ≤ W) : N ≤ W * chunkSize N W := by
  unfold chunkSize
  have hmod : (N + W - 1) % W < W := Nat.mod_lt _ (by omega)
  have hdm := Nat.div_add_mod (N + W - 1) W
  omega

theorem chunkSize_pos (N W : Nat) (hW : 1 ≤ W) (hN : 1 ≤ N) :
    1 ≤ chunkSize N W := by
  unfold chunkSize
  rw [Nat.le_div_iff_mul_le (by omega)]
  omega

/-- C1: for every task count `N ≥ 0` and worker count `W ≥ 1`, both the
round-robin assignment (worker `w` gets the indices `i < N` with
`i % W = w`, as iterated by `range(w, N, W)`) and the contiguous-chunk
assignment (`chunk = ceil(N/W)`, worker `w` gets
`[w*chunk, min((w+1)*chunk, N))`) partition `0..N-1`: every index below `N`
belongs to exactly one worker below `W`, and no assigned index is out of
range — including when `W > N`, where the excess workers' lists are empty
because no index can satisfy their membership condition. -/
theorem C1_partition_policies (N W : Nat) (hW : 1 ≤ W) :
    (∀ i, i < N → ∃! w, w < W ∧ i ∈ roundRobinAssign N W w) ∧
    (∀ w i, i ∈ roundRobinAssign N W w → i < N) ∧
    (∀ i, i < N → ∃! w, w < W ∧ i ∈ contiguousAssign N W w) ∧
    (∀ w i, i ∈ contiguousAssign N W w → i < N) := by
  refine ⟨fun i hi => ?_, fun w i hmem => ?_, fun i hi => ?_, fun w i hmem => ?_⟩
  · refine ⟨i % W, ⟨Nat.mod_lt _ (by omega), ?_⟩, ?_⟩
    · rw [mem_roundRobinAssign_iff_mod N W _ i hW (Nat.mod_lt _ (by omega))]
      exact ⟨hi, rfl⟩
    · rintro w' ⟨hw', hmem'⟩
      rw [mem_roundRobinAssign_iff_mod N W w' i hW hw'] at hmem'
      exact hmem'.2.symm
  · exact ((mem_roundRobinAssign N W w i hW).mp hmem).2.1
  · have hc : 1 ≤ chunkSize N W := chunkSize_pos N W hW (by omega)
    refine ⟨i / chunkSize N W, ⟨?_, ?_⟩, ?_⟩
    · rw [Nat.div_lt_iff_lt_mul (by omega)]
      have := chunkSize_covers N W hW
      have hcomm : W * chunkSize N W = chunkSize N W * W := Nat.mul_comm _ _
      omega
    · rw [mem_contiguousAssign]
      refine ⟨Nat.div_mul_le_self i _, ?_⟩
      have hdm := Nat.div_add_mod i (chunkSize N W)
      have hmod : i % chunkSize N W < chunkSize N W := Nat.mod_lt _ (by omega)
      have : i < (i / chunkSize N W + 1) * chunkSize N W := by
        have expand : (i / chunkSize N W + 1) * chunkSize N W =
            chunkSize N W * (i / chunkSize N W) + chunkSize N W := by ring
        omega
      omega
    · rintro w' ⟨hw', hmem'⟩
      rw [mem_contiguousAssign] at hmem'
      obtain ⟨hlo, hhi⟩ := hmem'
      have h1 : w' ≤ i / chunkSize N W := by
        rw [Nat.le_div_iff_mul_le (by omega)]
        exact hlo
      have h2 : i / chunkSize N W < w' + 1 := by
        rw [Nat.div_lt_iff_lt_mul (by omega)]
        omega
      omega
  · exact lt_of_lt_of_le ((mem_contiguousAssign N W w i).mp hmem).2 (min_le_right _ _)

/-- Concrete instance of C1: with five tasks and two workers, index 3
belongs to exactly one round-robin worker and exactly one contiguous
worker. -/
theorem C1_partition_policies_witness :
    1 ≤ 2 ∧ (∃! w, w < 2 ∧ 3 ∈ roundRobinAssign 5 2 w) ∧
      (∃! w, w < 2 ∧ 3 ∈ contiguousAssign 5 2 w) :=
  ⟨by decide, (C1_partition_policies 5 2 (by decide)).1 3 (by decide),
    (C1_partition_policies 5 2 (by decide)).2.2.1 3 (by decide)⟩

/-- The serial strategy (src/benchmarks/file_read.py serial_read,
src/benchmarks/num_threads.py single_threaded): start from an empty list
and append the output of each task in index order. -/
def serialRun (f : α → β) (tasks : List α) : List β :=
  tasks.foldl (fun checks p => checks ++ [f p]) []

/-- The process-pool strategy (src/benchmarks/num_threads.py
multi_processed): `pool.map(f, vals)` applies the task body to every input,
preserving input order. -/
def processRun (f : α → β) (tasks : List α) : List β :=
  tasks.map f

/-- The threaded round-robin strategy (src/benchmarks/file_read.py
threaded_read, src/benchmarks/num_threads.py multi_threaded): allocate
`checks = [None] * len(tasks)`, then worker `w` of `W` runs
`for i in range(w, len(tasks), W): checks[i] = f(tasks[i])` and all workers
are joined.  The workers write to disjoint slots, so every interleaving
produces the same final list; the fold below runs them in worker order. -/
def threadedRun (f : α → β) (tasks : List α) (W : Nat) : List (Option β) :=
  (List.range W).foldl
    (fun checks w =>
      (rangeStep w tasks.length W).foldl
        (fun checks i => checks.set i (tasks[i]?.map f)) checks)
    (List.replicate tasks.length none)

theorem foldl_set_length (g : Nat → Option β) :
    ∀ (l : List Nat) (cs : List (Option β)),
      (l.foldl (fun cs i => cs.set i (g i)) cs).length = cs.length := by
  intro l
  induction l with
  | nil => intro cs; rfl
  | cons i t ih =>
    intro cs
    simp only [List.foldl_cons]
    rw [ih]
    exact List.length_set ..

theorem foldl_set_getElem? (g : Nat → Option β) :
    ∀ (l : List Nat) (cs : List (Option β)) (j : Nat),
      (l.foldl (fun cs i => cs.set i (g i)) cs)[j]? =
        if j ∈ l ∧ j < cs.length then some (g j) else cs[j]? := by
  intro l
  induction l with
  | nil =>
    intro cs j
    simp
  | cons i t ih =>
    intro cs j
    simp only [List.foldl_cons]
    rw [ih]
    by_cases hjt : j ∈ t
    · by_cases hlen : j < cs.length
      · simp [hjt, hlen, List.mem_cons]
      · simp [hjt, hlen, List.mem_cons]
        rw [List.getElem?_eq_none (by simpa using not_lt.mp hlen),
          List.getElem?_eq_none (by simpa using not_lt.mp hlen)]
    · simp only [List.length_set, hjt, false_and, if_false]
      by_cases hij : i = j
      · subst hij
        by_cases hlen : i < cs.length
        · simp [hlen, List.mem_cons]
        · simp only [List.mem_cons, or_false, hjt]
          rw [if_neg (by intro h; exact hlen h.2)]
          rw [List.getElem?_eq_none (by simpa using not_lt.mp hlen),
            List.getElem?_eq_none (by simpa using not_lt.mp hlen)]
      · rw [List.getElem?_set_ne hij]
        simp only [List.mem_cons, hjt, or_false]
        rw [if_neg (by intro hc; exact hij hc.1.symm)]

theorem foldl_workers_length (g : Nat → Option β) (n W : Nat) :
    ∀ (ws : List Nat) (cs : List (Option β)),
      (ws.foldl
        (fun cs w => (rangeStep w n W).foldl
          (fun cs i => cs.set i (g i)) cs) cs).length = cs.length := by
  intro ws
  induction ws with
  | nil => intro cs; rfl
  | cons w t ih =>
    intro cs
    simp only [List.foldl_cons]
    rw [ih, foldl_set_length]

theorem foldl_workers_getElem? (g : Nat → Option β) (n W : Nat) :
    ∀ (ws : List Nat) (cs : List (Option β)) (j : Nat),
      (ws.foldl
        (fun cs w => (rangeStep w n W).foldl
          (fun cs i => cs.set i (g i)) cs) cs)[j]? =
        if (∃ w ∈ ws, j ∈ rangeStep w n W) ∧ j < cs.length
          then some (g j) else cs[j]? := by
  intro ws
  induction ws with
  | nil =>
    intro cs j
    simp
  | cons w t ih =>
    intro cs j
    simp only [List.foldl_cons]
    rw [ih, foldl_set_length, foldl_set_getElem?]
    by_cases hlen : j < cs.length
    · by_cases hmemt : ∃ w' ∈ t, j ∈ rangeStep w' n W
      · simp [hmemt, hlen, List.mem_cons]
      · simp only [hmemt, false_and, if_false]
        by_cases hmemw : j ∈ rangeStep w n W
        · rw [if_pos ⟨hmemw, hlen⟩,
            if_pos ⟨⟨w, List.mem_cons_self w t, hmemw⟩, hlen⟩]
        · rw [if_neg (by simp [hmemw, hlen]), if_neg]
          rintro ⟨⟨w', hw', hj'⟩, -⟩
          rcases List.mem_cons.mp hw' with rfl | hw't
          · exact hmemw hj'
          · exact hmemt ⟨w', hw't, hj'⟩
    · rw [if_neg (by simp [hlen]), if_neg (by simp [hlen]),
        if_neg (by simp [hlen])]

/-- Every worker index below `W ≥ 1` is claimed by worker `j % W` of the
spawned workers `range(W)`. -/
theorem exists_worker_covering (n W j : Nat) (hW : 1 ≤ W) (hj : j < n) :
    ∃ w ∈ List.range W, j ∈ rangeStep w n W := by
  refine ⟨j % W, List.mem_range.mpr (Nat.mod_lt _ (by omega)), ?_⟩
  rw [show rangeStep (j % W) n W = roundRobinAssign n W (j % W) from rfl,
    mem_roundRobinAssign_iff_mod n W _ j hW (Nat.mod_lt _ (by omega))]
  exact ⟨hj, rfl⟩

theorem threadedRun_length (f : α → β) (tasks : List α) (W : Nat) :
    (threadedRun f tasks W).length = tasks.length := by
  unfold threadedRun
  rw [foldl_workers_length]
  exact List.length_replicate ..

theorem threadedRun_getElem? (f : α → β) (tasks : List α) (W : Nat)
    (hW : 1 ≤ W) (j : Nat) (hj : j < tasks.length) :
    (threadedRun f tasks W)[j]? = some (tasks[j]?.map f) := by
  unfold threadedRun
  rw [foldl_workers_getElem?]
  rw [if_pos ⟨exists_worker_covering tasks.length W j hW hj, by
    simpa using hj⟩]

theorem serialRun_eq_map (f : α → β) (tasks : List α) :
    serialRun f tasks = tasks.map f := by
  unfold serialRun
  suffices h : ∀ (l : List α) (acc : List β),
      l.foldl (fun checks p => checks ++ [f p]) acc = acc ++ l.map f by
    simpa using h tasks []
  intro l
  induction l with
  | nil => intro acc; simp
  | cons a t ih => intro acc; simp [ih]

/-- C2: every implemented strategy — serial, round-robin-threaded with
`W ≥ 1` workers, and process-pool — returns a result list whose length is
the task count, and slot `i` holds the output of task `i`; in particular
no slot of the threaded strategy's pre-allocated None list is left
unpopulated. -/
theorem C2_strategies_populate (f : α → β) (tasks : List α) (W : Nat)
    (hW : 1 ≤ W) :
    (serialRun f tasks).length = tasks.length ∧
    (processRun f tasks).length = tasks.length ∧
    (threadedRun f tasks W).length = tasks.length ∧
    (∀ i, (h : i < tasks.length) →
      (serialRun f tasks)[i]? = some (f tasks[i]) ∧
      (processRun f tasks)[i]? = some (f tasks[i]) ∧
      (threadedRun f tasks W)[i]? = some (some (f tasks[i]))) := by
  refine ⟨?_, ?_, threadedRun_length f tasks W, fun i h => ⟨?_, ?_, ?_⟩⟩
  · rw [serialRun_eq_map]; exact List.length_map ..
  · exact List.length_map ..
  · rw [serialRun_eq_map]
    simp [List.getElem?_eq_getElem, h]
  · simp [processRun, List.getElem?_eq_getElem, h]
  · rw [threadedRun_getElem? f tasks W hW i h]
    simp [List.getElem?_eq_getElem, h]

/-- Concrete instance of C2: with tasks `[3, 4, 5]`, body `n + 1` and two
workers, every strategy returns three fully populated slots and slot 0
holds the output of task 0. -/
theorem C2_strategies_populate_witness :
    (threadedRun (fun n : Nat => n + 1) [3, 4, 5] 2).length = 3 ∧
      (threadedRun (fun n : Nat => n + 1) [3, 4, 5] 2)[0]? = some (some 4) ∧
      (serialRun (fun n : Nat => n + 1) [3, 4, 5])[2]? = some 6 := by
  have h := C2_strategies_populate (fun n : Nat => n + 1) [3, 4, 5] 2
    (by decide)
  exact ⟨h.2.2.1, (h.2.2.2 0 (by decide)).2.2, (h.2.2.2 2 (by decide)).1⟩

/-- C5: with a single worker, the threaded strategy's one worker iterates
`range(0, N, 1)`, visiting indices `0, 1, ..., N-1` in order, so it fills
the slots with exactly the values the serial strategy appends: the two
result lists agree (the threaded list wraps each value in the Some that
replaces the initial None placeholder). -/
theorem C5_threaded_one_worker_eq_serial (f : α → β) (tasks : List α) :
    threadedRun f tasks 1 = (serialRun f tasks).map some := by
  apply List.ext_getElem?
  intro j
  by_cases hj : j < tasks.length
  · rw [threadedRun_getElem? f tasks 1 (le_refl 1) j hj]
    rw [serialRun_eq_map, List.getElem?_map, List.getElem?_map]
    simp [List.getElem?_eq_getElem, hj]
  · rw [List.getElem?_eq_none, List.getElem?_eq_none]
    · rw [List.length_map, serialRun_eq_map, List.length_map]
      omega
    · rw [threadedRun_length]
      omega

/-- C6 counterexample: calling the threaded strategy with worker count 0
(`threaded_read(paths, num_threads=0)`) raises nothing and rejects
nothing — `range(0)` is empty, so no thread is created, no task body runs,
and the function returns the still-unpopulated result list `[None]`.
The embedding is total on this path because the Python code has no raising
operation on it. -/
theorem C6_counterexample :
    threadedRun (fun n : Nat => n + 1) [5] 0 = [none] := by rfl

/-- C6 amended: with worker count `W = 0` (Python `range(num_threads)` is
likewise empty for every `num_threads ≤ 0`), the threaded strategy is not
rejected before work starts; it spawns no workers, invokes no task body
(the result is independent of the task body), and returns the all-None
pre-allocated result list. -/
theorem C6_amended_zero_workers (f g : α → β) (tasks : List α) :
    threadedRun f tasks 0 = List.replicate tasks.length none ∧
      threadedRun f tasks 0 = threadedRun g tasks 0 := by
  constructor
  · unfold threadedRun
    rw [List.range_zero, List.foldl_nil]
  · rfl

/-- The average printed by every perf_timer: `sum(times)/len(times)`. -/
def reportedAvg (times : List ℚ) : ℚ :=
  times.sum / (times.length : ℚ)

/-- The perf_timer wrapper of src/benchmarks/file_read.py and
src/benchmarks/single_matmul.py: one discarded warm-up call, then
`for _ in range(3)` timed calls.  The wrapped strategy's k-th invocation is
modelled by its elapsed cost `cost k`; the wrapper returns the recorded
times together with the total number of invocations made.  The pair starts
at `([], 1)` because the warm-up `_ = func(...)` is call 0 and records no
time. -/
def perfTimerFR (cost : Nat → ℚ) : List ℚ × Nat :=
  (List.range 3).foldl (fun p _ => (p.1 ++ [cost p.2], p.2 + 1)) ([], 1)

/-- The perf_timer wrapper of src/benchmarks/matmul.py: a warm-up loop
`for _ in range(0, 2)` of discarded calls, then `for _ in range(0, 5)`
timed calls, modelled like `perfTimerFR`. -/
def perfTimerMM (cost : Nat → ℚ) : List ℚ × Nat :=
  (List.range 5).foldl (fun p _ => (p.1 ++ [cost p.2], p.2 + 1))
    ([], (List.range 2).foldl (fun n _ => n + 1) 0)

/-- C3 counterexample: the matmul harness's perf_timer performs 7 calls of
which 5 are timed, so it executes the wrapped strategy twice — not exactly
once — as unmeasured warm-up; its first timed sample is the cost of call
index 2. -/
theorem C3_counterexample :
    (perfTimerMM (fun k => (k : ℚ))).2 -
        (perfTimerMM (fun k => (k : ℚ))).1.length = 2 ∧
      (2 : Nat) ≠ 1 ∧
      (perfTimerMM (fun k => (k : ℚ))).1 = [2, 3, 4, 5, 6] := by
  exact ⟨rfl, by decide, by decide⟩

/-- Absolute value on the rationals, embedding the `abs` of math.isclose. -/
def ratAbs (x : ℚ) : ℚ :=
  if x < 0 then -x else x

/-- Binary maximum on the rationals, embedding the `max` of math.isclose. -/
def ratMax (x y : ℚ) : ℚ :=
  if x ≤ y then y else x

/-- Python `math.isclose(a, b, rel_tol, abs_tol)`:
`|a-b| <= max(rel_tol*max(|a|,|b|), abs_tol)` — the comparator that
approx_equal applies at every index. -/
def isClose (rel absTol a b : ℚ) : Bool :=
  decide (ratAbs (a - b) ≤ ratMax (rel * ratMax (ratAbs a) (ratAbs b)) absTol)

/-- The inner loop of src/benchmarks/single_matmul.py approx_equal, with
the element comparator `c` (in the source, `isClose rel absTol`) kept as a
parameter: `for j in range(len(row1))`, access `row2[j]` (IndexError —
`none` — when `row2` is shorter), and return False for the whole
comparison on the first failing pair.  Elements of `row2` beyond
`len(row1)` are never read. -/
def rowCheck (c : α → α → Bool) : List α → List α → Option Bool
  | [], _ => some true
  | _ :: _, [] => none
  | a :: r1, b :: r2 =>
    if c a b then rowCheck c r1 r2 else some false

/-- src/benchmarks/single_matmul.py approx_equal with the comparator kept
as a parameter: `for i in range(len(L1))`, access `row2 = L2[i]`
(IndexError — `none` — when `L2` is shorter), check the row, and return
True only after every row of `L1` passes.  Rows of `L2` beyond `len(L1)`
are never read. -/
def approxEqual (c : α → α → Bool) : List (List α) → List (List α) → Option Bool
  | [], _ => some true
  | _ :: _, [] => none
  | r1 :: t1, r2 :: t2 =>
    match rowCheck c r1 r2 with
    | none => none
    | some false => some false
    | some true => approxEqual c t1 t2

/-- Default relative tolerance of approx_equal: `rel=1e-6`. -/
def relDefault : ℚ := 1 / 1000000

/-- Default absolute tolerance of approx_equal: `abs_tol=1e-8`. -/
def absDefault : ℚ := 1 / 100000000

/-- The comparator-success property approx_equal actually decides for one
row: it quantifies over the index range of its first argument only. -/
def rowClose [Inhabited α] (c : α → α → Bool) (r1 r2 : List α) : Prop :=
  r1.length ≤ r2.length ∧
    ∀ j, j < r1.length → c (r1.getD j default) (r2.getD j default) = true

/-- Element-wise comparator success over the first list’s index ranges. -/
def elementwiseClose [Inhabited α] (c : α → α → Bool)
    (L1 L2 : List (List α)) : Prop :=
  L1.length ≤ L2.length ∧
    ∀ i, i < L1.length → rowClose c (L1.getD i []) (L2.getD i [])

instance [Inhabited α] (c : α → α → Bool) (r1 r2 : List α) :
    Decidable (rowClose c r1 r2) := by
  unfold rowClose
  infer_instance

instance [Inhabited α] (c : α → α → Bool) (L1 L2 : List (List α)) :
    Decidable (elementwiseClose c L1 L2) := by
  unfold elementwiseClose
  infer_instance

theorem rowCheck_eq_some_true [Inhabited α] (c : α → α → Bool) :
    ∀ r1 r2 : List α,
      (rowCheck c r1 r2 = some true ↔ rowClose c r1 r2) := by
  intro r1
  induction r1 with
  | nil =>
    intro r2
    simp [rowCheck, rowClose]
  | cons a t1 ih =>
    intro r2
    cases r2 with
    | nil =>
      simp only [rowCheck, rowClose, List.length_cons, List.length_nil]
      constructor
      · intro h; cases h
      · intro h; omega
    | cons b t2 =>
      simp only [rowCheck]
      by_cases hab : c a b = true
      · rw [if_pos hab, ih t2]
        unfold rowClose
        simp only [List.length_cons]
        constructor
        · rintro ⟨h1, h2⟩
          refine ⟨by omega, fun j hj => ?_⟩
          cases j with
          | zero => simpa using hab
          | succ j' => simpa using h2 j' (by omega)
        · rintro ⟨h1, h2⟩
          refine ⟨by omega, fun j hj => ?_⟩
          simpa using h2 (j + 1) (by omega)
      · rw [if_neg hab]
        unfold rowClose
        constructor
        · intro h; cases h
        · rintro ⟨h1, h2⟩
          exact absurd (by simpa using h2 0 (by simp)) hab

theorem elementwiseClose_cons [Inhabited α] (c : α → α → Bool)
    (r1 r2 : List α) (t1 t2 : List (List α)) :
    elementwiseClose c (r1 :: t1) (r2 :: t2) ↔
      rowClose c r1 r2 ∧ elementwiseClose c t1 t2 := by
  unfold elementwiseClose
  simp only [List.length_cons]
  constructor
  · rintro ⟨h1, h2⟩
    refine ⟨by simpa using h2 0 (by omega), by omega, fun i hi => ?_⟩
    simpa using h2 (i + 1) (by omega)
  · rintro ⟨hr, h1, h2⟩
    refine ⟨by omega, fun i hi => ?_⟩
    cases i with
    | zero => simpa using hr
    | succ i' => simpa using h2 i' (by omega)

/-- C4 amended (core equivalence): approx_equal returns True exactly when
every element within the index ranges of its FIRST argument has a
counterpart in the second that passes the comparator — it never reads
beyond the first argument's shape, so a True result does not require
`len(resultA) == len(resultB)`, while any single comparator failure or
missing counterpart inside the first argument's range prevents True. -/
theorem C4_amended_first_arg_ranges [Inhabited α] (c : α → α → Bool) :
    ∀ L1 L2 : List (List α),
      (approxEqual c L1 L2 = some true ↔ elementwiseClose c L1 L2) := by
  intro L1
  induction L1 with
  | nil =>
    intro L2
    simp [approxEqual, elementwiseClose]
  | cons r1 t1 ih =>
    intro L2
    cases L2 with
    | nil =>
      simp only [approxEqual, elementwiseClose, List.length_cons,
        List.length_nil]
      constructor
      · intro h; cases h
      · intro h; omega
    | cons r2 t2 =>
      rw [elementwiseClose_cons]
      simp only [approxEqual]
      cases hrow : rowCheck c r1 r2 with
      | none =>
        constructor
        · intro h; cases h
        · rintro ⟨hr, -⟩
          rw [← rowCheck_eq_some_true c r1 r2] at hr
          rw [hrow] at hr
          cases hr
      | some b =>
        cases b with
        | false =>
          constructor
          · intro h; cases h
          · rintro ⟨hr, -⟩
            rw [← rowCheck_eq_some_true c r1 r2] at hr
            rw [hrow] at hr
            cases hr
        | true =>
          rw [ih t2]
          have hr : rowClose c r1 r2 :=
            (rowCheck_eq_some_true c r1 r2).mp hrow
          exact ⟨fun h => ⟨hr, h⟩, fun h => h.2⟩

/-- C4 counterexample: approx_equal returns True on inputs of different
lengths — with its actual comparator and default tolerances, the empty
result list compares True against a one-row list, so a True result does
not require `len(resultA) == len(resultB)`. -/
theorem C4_counterexample :
    approxEqual (isClose relDefault absDefault) [] [[1]] = some true ∧
      ([] : List (List ℚ)).length ≠ [[(1 : ℚ)]].length := by
  exact ⟨rfl, by decide⟩

/-- Concrete instances of the amended C4: a first list whose rows all pass
compares True against a strictly longer second list (extra material of the
second list is never read), both for a comparator on naturals and for the
source's isClose comparator at the default tolerances. -/
theorem C4_amended_first_arg_ranges_witness :
    approxEqual (fun a b : Nat => a == b) [[1, 2]] [[1, 2], [3]] =
        some true ∧
      approxEqual (isClose relDefault absDefault) [[]] [[], [3]] =
        some true :=
  ⟨(C4_amended_first_arg_ranges (fun a b : Nat => a == b) [[1, 2]]
      [[1, 2], [3]]).mpr (by decide),
    (C4_amended_first_arg_ranges (isClose relDefault absDefault) [[]]
      [[], [3]]).mpr (by decide)⟩

/-- C3 amended: the file_read/single_matmul perf_timer warms up exactly
once and times exactly 3 further runs, while the matmul perf_timer warms
up exactly twice and times exactly 5 further runs; in both, the reported
aggregate is the arithmetic mean of the timed elapsed costs only, the
warm-up runs being excluded. -/
theorem C3_amended_warmup_and_mean (cost : Nat → ℚ) :
    perfTimerFR cost = ([cost 1, cost 2, cost 3], 4) ∧
      reportedAvg (perfTimerFR cost).1 = (cost 1 + cost 2 + cost 3) / 3 ∧
      perfTimerMM cost = ([cost 2, cost 3, cost 4, cost 5, cost 6], 7) ∧
      reportedAvg (perfTimerMM cost).1 =
        (cost 2 + cost 3 + cost 4 + cost 5 + cost 6) / 5 := by
  refine ⟨rfl, ?_, rfl, ?_⟩
  · show ([cost 1, cost 2, cost 3].sum : ℚ) /
      (([cost 1, cost 2, cost 3].length : Nat) : ℚ) = _
    simp [List.sum_cons]
    ring_nf
  · show ([cost 2, cost 3, cost 4, cost 5, cost 6].sum : ℚ) /
      (([cost 2, cost 3, cost 4, cost 5, cost 6].length : Nat) : ℚ) = _
    simp [List.sum_cons]
    ring_nf
/-- Events of the shared-memory strategy of src/benchmarks/single_matmul.py
multiprocess_matmul_shared, in program order.  `timerStart`/`timerStop`
mark perf_timer's `time.perf_counter()` calls around each timed
invocation. -/
inductive ShmEvent where
  | createA
  | createB
  | copyIn
  | poolMap
  | closeA
  | unlinkA
  | closeB
  | unlinkB
  | timerStart
  | timerStop
deriving DecidableEq

/-- One invocation of multiprocess_matmul_shared: it creates both shared
memory segments, copies A and B in, runs the pool, and only then — with no
try/finally — closes and unlinks both segments.  `poolOk = false` models
the pool work raising: the exception propagates and the close/unlink lines
are never reached. -/
def sharedCallTrace (poolOk : Bool) : List ShmEvent :=
  [ShmEvent.createA, ShmEvent.createB, ShmEvent.copyIn, ShmEvent.poolMap] ++
    (if poolOk then
      [ShmEvent.closeA, ShmEvent.unlinkA, ShmEvent.closeB, ShmEvent.unlinkB]
    else [])

/-- A full error-free perf_timer run over multiprocess_matmul_shared (the
single_matmul.py wrapper): one discarded warm-up invocation, then three
invocations each bracketed by the timer. -/
def perfTimerSharedTrace : List ShmEvent :=
  sharedCallTrace true ++
    (List.range 3).foldl
      (fun acc _ =>
        acc ++ [ShmEvent.timerStart] ++ sharedCallTrace true ++
          [ShmEvent.timerStop]) []

/-- C7 counterexample: across one perf_timer run of the shared-memory
strategy the segments are unlinked four times — once per invocation, not
exactly once after the last repetition; segment creation happens inside
the timed region (a creation event immediately follows a timer start); and
when the pool work raises, the invocation releases nothing at all. -/
theorem C7_counterexample :
    (perfTimerSharedTrace.count ShmEvent.unlinkA = 4 ∧ (4 : Nat) ≠ 1) ∧
      perfTimerSharedTrace[8]? = some ShmEvent.timerStart ∧
      perfTimerSharedTrace[9]? = some ShmEvent.createA ∧
      (sharedCallTrace false).count ShmEvent.unlinkA = 0 := by
  decide

/-- C7 amended: each successful invocation of the shared-memory strategy
creates both segments at its start — inside the timed region for the timed
repetitions — and closes and unlinks each exactly once at its end, giving
four creations and four releases per perf_timer run instead of a single
release after the last repetition; an invocation whose pool work raises
releases nothing (there is no try/finally), so release is not guaranteed
on error exit paths. -/
theorem C7_amended_release_per_call :
    (sharedCallTrace true).count ShmEvent.unlinkA = 1 ∧
      (sharedCallTrace true).count ShmEvent.unlinkB = 1 ∧
      (sharedCallTrace true).count ShmEvent.closeA = 1 ∧
      (sharedCallTrace false).count ShmEvent.unlinkA = 0 ∧
      (sharedCallTrace false).count ShmEvent.closeA = 0 ∧
      perfTimerSharedTrace.count ShmEvent.createA = 4 ∧
      perfTimerSharedTrace.count ShmEvent.unlinkA = 4 ∧
      perfTimerSharedTrace[8]? = some ShmEvent.timerStart ∧
      perfTimerSharedTrace[9]? = some ShmEvent.createA := by
  decide
/-- Shared-counter model for src/benchmarks/mem_safety.py safe_incr: with
the mutual-exclusion lock held around `counter += 1`, each increment is an
atomic read-modify-write, so a concurrent execution is an interleaving —
a schedule listing which worker performs each locked increment — and each
scheduled event adds exactly one to the counter, which starts at 0. -/
def safeRun (sched : List Nat) : Nat :=
  sched.foldl (fun counter _ => counter + 1) 0

/-- A schedule of test_safe(num_threads, increments_per_thread): every
event belongs to one of the `W` spawned workers and every worker performs
exactly `n` increments; the interleaving order is otherwise arbitrary. -/
def validSchedule (W n : Nat) (sched : List Nat) : Prop :=
  (∀ w ∈ sched, w < W) ∧ ∀ w, w < W → sched.count w = n

instance (W n : Nat) (sched : List Nat) :
    Decidable (validSchedule W n sched) := by
  unfold validSchedule
  infer_instance

theorem safeRun_eq_length (sched : List Nat) : safeRun sched = sched.length := by
  unfold safeRun
  suffices h : ∀ (l : List Nat) (c : Nat),
      l.foldl (fun counter _ => counter + 1) c = c + l.length by
    simpa using h sched 0
  intro l
  induction l with
  | nil => intro c; simp
  | cons a t ih =>
    intro c
    simp only [List.foldl_cons, List.length_cons]
    rw [ih]
    omega

theorem length_eq_sum_count (W : Nat) :
    ∀ sched : List Nat, (∀ x ∈ sched, x < W) →
      sched.length = ∑ w ∈ Finset.range W, sched.count w := by
  intro sched
  induction sched with
  | nil => intro _; simp
  | cons a t ih =>
    intro h
    have ha : a < W := h a (List.mem_cons_self a t)
    have ht : ∀ x ∈ t, x < W := fun x hx => h x (List.mem_cons_of_mem a hx)
    simp only [List.length_cons, List.count_cons]
    rw [Finset.sum_add_distrib, ← ih ht]
    have : (∑ w ∈ Finset.range W, if a == w then 1 else 0) = 1 := by
      simp only [beq_iff_eq]
      rw [Finset.sum_ite_eq (Finset.range W) a fun _ => 1]
      simp [ha]
    omega

/-- C8: in the shared-counter stress mode, the lock-protected variant ends
with the counter exactly equal to `workers * incrementsPerWorker` for
every number of workers, every per-worker increment count, and every
interleaving of the locked increments, so its lost-update count
`expected - observed` is 0 on every run. -/
theorem C8_safe_counter_exact (W n : Nat) (sched : List Nat)
    (h : validSchedule W n sched) : safeRun sched = W * n := by
  obtain ⟨hmem, hcount⟩ := h
  rw [safeRun_eq_length, length_eq_sum_count W sched hmem]
  rw [Finset.sum_congr rfl fun w hw => hcount w (Finset.mem_range.mp hw)]
  simp [Finset.sum_const, Finset.card_range, Nat.mul_comm]
/-- Concrete instance of C8: two workers, three locked increments each,
under an alternating interleaving, end with the counter at 2 * 3 = 6. -/
theorem C8_safe_counter_exact_witness :
    validSchedule 2 3 [0, 1, 0, 1, 0, 1] ∧ safeRun [0, 1, 0, 1, 0, 1] = 2 * 3 :=
  ⟨by decide, C8_safe_counter_exact 2 3 [0, 1, 0, 1, 0, 1] (by decide)⟩
/-- The pair-index loop `range(0, len(matrices), 2)` shared by
serial_matmul and by the pair construction of process_pool_matmul in
src/benchmarks/matmul.py. -/
def pairIndices (N : Nat) : List Nat :=
  rangeStep 0 N 2

/-- One iteration of serial_matmul's loop body
`results.append(no_np_matmul(matrices[i], matrices[i+1]))`; accessing
`matrices[i+1]` past the end raises IndexError (`none`). -/
def appendPair (f : α → α → γ) (ms : List α) (acc : Option (List γ))
    (i : Nat) : Option (List γ) :=
  acc.bind fun r => ms[i]?.bind fun a => (ms[i + 1]?).map fun b => r ++ [f a b]

/-- src/benchmarks/matmul.py serial_matmul: fold the append loop over the
pair indices, starting from `results = []`. -/
def serialMatmul (f : α → α → γ) (ms : List α) : Option (List γ) :=
  (pairIndices ms.length).foldl (appendPair f ms) (some [])

/-- One iteration of process_pool_matmul's pair construction
`pairs = [(matrices[i], matrices[i+1]) for i in range(0, len(matrices), 2)]`. -/
def appendProd (ms : List α) (acc : Option (List (α × α)))
    (i : Nat) : Option (List (α × α)) :=
  acc.bind fun r => ms[i]?.bind fun a => (ms[i + 1]?).map fun b => r ++ [(a, b)]

/-- The pair list built by process_pool_matmul before dispatching to the
pool; IndexError (`none`) when the last pair is incomplete. -/
def buildPairs (ms : List α) : Option (List (α × α)) :=
  (pairIndices ms.length).foldl (appendProd ms) (some [])

/-- src/benchmarks/matmul.py process_pool_matmul: build the pair list, then
`pool.starmap(f, pairs)` applies the task body to every pair in order. -/
def processPoolMatmul (f : α → α → γ) (ms : List α) : Option (List γ) :=
  (buildPairs ms).map fun pairs => pairs.map fun p => f p.1 p.2

/-- src/benchmarks/matmul.py threaded_matmul: allocate
`results = [None] * (len(matrices) // 2)`, and worker `w` of `W` runs
`for i in range(w, len(results), W): results[i] = f(matrices[i*2],
matrices[i*2+1])`, all workers joined; as with `threadedRun`, the workers
write disjoint slots so the sequential fold is interleaving-faithful. -/
def threadedMatmul (f : α → α → γ) (ms : List α) (W : Nat) : List (Option γ) :=
  (List.range W).foldl
    (fun results w =>
      (rangeStep w (ms.length / 2) W).foldl
        (fun results i =>
          results.set i
            ((ms[i * 2]?).bind fun a => (ms[i * 2 + 1]?).map fun b => f a b))
        results)
    (List.replicate (ms.length / 2) none)

theorem foldl_appendPair_none (f : α → α → γ) (ms : List α) :
    ∀ l : List Nat, l.foldl (appendPair f ms) none = none := by
  intro l
  induction l with
  | nil => rfl
  | cons i t ih => simpa [appendPair] using ih

theorem foldl_appendProd_none (ms : List α) :
    ∀ l : List Nat, l.foldl (appendProd ms) none = none := by
  intro l
  induction l with
  | nil => rfl
  | cons i t ih => simpa [appendProd] using ih

theorem foldl_appendPair_eq_appendProd (f : α → α → γ) (ms : List α) :
    ∀ (l : List Nat) (p : List (α × α)),
      l.foldl (appendPair f ms) (some (p.map fun q => f q.1 q.2)) =
        (l.foldl (appendProd ms) (some p)).map (List.map fun q => f q.1 q.2) := by
  intro l
  induction l with
  | nil => intro p; rfl
  | cons i t ih =>
    intro p
    simp only [List.foldl_cons]
    cases ha : ms[i]? with
    | none =>
      have s1 : appendPair f ms (some (p.map fun q => f q.1 q.2)) i = none := by
        simp [appendPair, ha]
      have s2 : appendProd ms (some p) i = none := by
        simp [appendProd, ha]
      rw [s1, s2, foldl_appendPair_none, foldl_appendProd_none]
      rfl
    | some a =>
      cases hb : ms[i + 1]? with
      | none =>
        have s1 : appendPair f ms (some (p.map fun q => f q.1 q.2)) i = none := by
          simp [appendPair, ha, hb]
        have s2 : appendProd ms (some p) i = none := by
          simp [appendProd, ha, hb]
        rw [s1, s2, foldl_appendPair_none, foldl_appendProd_none]
        rfl
      | some b =>
        have step1 : appendPair f ms (some (p.map fun q => f q.1 q.2)) i =
            some ((p ++ [(a, b)]).map fun q => f q.1 q.2) := by
          simp [appendPair, ha, hb]
        have step2 : appendProd ms (some p) i = some (p ++ [(a, b)]) := by
          simp [appendProd, ha, hb]
        rw [step1, step2, ih (p ++ [(a, b)])]

/-- serial_matmul and process_pool_matmul run the same index loop with the
same accesses and produce the same list (or fail at the same point). -/
theorem serialMatmul_eq_processPoolMatmul (f : α → α → γ) (ms : List α) :
    serialMatmul f ms = processPoolMatmul f ms := by
  unfold serialMatmul processPoolMatmul buildPairs
  have h := foldl_appendPair_eq_appendProd f ms (pairIndices ms.length) []
  simpa using h

theorem foldl_appendPair_fail (f : α → α → γ) (ms : List α) :
    ∀ (l : List Nat) (acc : Option (List γ)),
      (∃ i ∈ l, ms[i + 1]? = none) →
        l.foldl (appendPair f ms) acc = none := by
  intro l
  induction l with
  | nil =>
    rintro acc ⟨i, hi, -⟩
    cases hi
  | cons j t ih =>
    rintro acc ⟨i, hi, hnone⟩
    rcases List.mem_cons.mp hi with rfl | hit
    · simp only [List.foldl_cons]
      have hstep : appendPair f ms acc i = none := by
        cases acc with
        | none => rfl
        | some r =>
          cases ha : ms[i]? with
          | none => simp [appendPair, ha]
          | some a => simp [appendPair, ha, hnone]
      rw [hstep, foldl_appendPair_none]
    · simp only [List.foldl_cons]
      exact ih _ ⟨i, hit, hnone⟩

theorem foldl_appendPair_success (f : α → α → γ) (ms : List α) :
    ∀ (l : List Nat) (r : List γ),
      (∀ i ∈ l, i + 1 < ms.length) →
        ∃ out, l.foldl (appendPair f ms) (some r) = some out ∧
          out.length = r.length + l.length := by
  intro l
  induction l with
  | nil =>
    intro r _
    exact ⟨r, rfl, by simp⟩
  | cons i t ih =>
    intro r h
    have hi1 : i + 1 < ms.length := h i (List.mem_cons_self i t)
    have hi0 : i < ms.length := by omega
    have hstep : appendPair f ms (some r) i =
        some (r ++ [f (ms.get ⟨i, hi0⟩) (ms.get ⟨i + 1, hi1⟩)]) := by
      simp [appendPair, List.getElem?_eq_getElem, hi0, hi1]
    simp only [List.foldl_cons, hstep]
    obtain ⟨out, hout, hlen⟩ :=
      ih (r ++ [f (ms.get ⟨i, hi0⟩) (ms.get ⟨i + 1, hi1⟩)])
        (fun j hj => h j (List.mem_cons_of_mem i hj))
    refine ⟨out, hout, ?_⟩
    simp only [List.length_append, List.length_cons, List.length_nil]
      at hlen ⊢
    omega

theorem length_rangeStepAux_two :
    ∀ (fuel s n : Nat), n - s ≤ fuel →
      (rangeStepAux fuel s n 2).length = (n - s + 1) / 2 := by
  intro fuel
  induction fuel with
  | zero =>
    intro s n hf
    simp only [rangeStepAux, List.length_nil]
    omega
  | succ m ih =>
    intro s n hf
    simp only [rangeStepAux]
    by_cases hlt : s < n
    · rw [if_pos hlt]
      simp only [List.length_cons]
      rw [ih (s + 2) n (by omega)]
      omega
    · rw [if_neg hlt]
      simp only [List.length_nil]
      omega

theorem length_pairIndices (N : Nat) : (pairIndices N).length = (N + 1) / 2 := by
  unfold pairIndices rangeStep
  rw [show N - 0 = N from rfl, length_rangeStepAux_two N 0 N (by omega)]
  omega
theorem threadedMatmul_length (f : α → α → γ) (ms : List α) (W : Nat) :
    (threadedMatmul f ms W).length = ms.length / 2 := by
  unfold threadedMatmul
  rw [foldl_workers_length]
  exact List.length_replicate ..

theorem threadedMatmul_getElem? (f : α → α → γ) (ms : List α) (W : Nat)
    (hW : 1 ≤ W) (i : Nat) (hi : i < ms.length / 2) :
    (threadedMatmul f ms W)[i]? =
      some ((ms[i * 2]?).bind fun a => (ms[i * 2 + 1]?).map fun b => f a b) := by
  unfold threadedMatmul
  rw [foldl_workers_getElem?]
  rw [if_pos ⟨exists_worker_covering (ms.length / 2) W i hW hi, by
    simpa using hi⟩]

/-- C9 counterexample: on the odd-length input `[m]`, process_pool_matmul
does not complete with `floor(1/2) = 0` results — its pair construction
accesses `matrices[1]` past the end and raises IndexError, just like
serial_matmul; only threaded_matmul completes (with the empty result
list). -/
theorem C9_counterexample :
    processPoolMatmul (fun a b : Nat => a + b) [1] = none ∧
      serialMatmul (fun a b : Nat => a + b) [1] = none ∧
      threadedMatmul (fun a b : Nat => a + b) [1] 2 = [] := by
  decide

/-- C9 amended: on every odd-length matrices list, BOTH the serial and the
process-pool matmul strategies raise IndexError (each runs
`range(0, N, 2)` up to `i = N-1` and accesses `matrices[i+1]`), while the
threaded strategy completes and returns `floor(N/2)` populated results,
silently ignoring the final matrix; on even-length inputs the serial and
process-pool strategies return the same list of `N/2` products, agreeing
with the threaded strategy's length. -/
theorem C9_amended_matmul_odd_even (f : α → α → γ) (ms : List α) (W : Nat)
    (hW : 1 ≤ W) :
    (ms.length % 2 = 1 →
      serialMatmul f ms = none ∧ processPoolMatmul f ms = none) ∧
    (threadedMatmul f ms W).length = ms.length / 2 ∧
    (∀ i, (hi : i < ms.length / 2) →
      (threadedMatmul f ms W)[i]? =
        some (some (f (ms.get ⟨i * 2, by omega⟩)
          (ms.get ⟨i * 2 + 1, by omega⟩)))) ∧
    (ms.length % 2 = 0 →
      ∃ out, serialMatmul f ms = some out ∧
        processPoolMatmul f ms = some out ∧ out.length = ms.length / 2) := by
  refine ⟨fun hodd => ?_, threadedMatmul_length f ms W, fun i hi => ?_,
    fun heven => ?_⟩
  · have hmem : ms.length - 1 ∈ pairIndices ms.length := by
      rw [pairIndices, mem_rangeStep _ _ _ _ (by omega)]
      omega
    have hfail : ms[ms.length - 1 + 1]? = none :=
      List.getElem?_eq_none (by omega)
    have hserial : serialMatmul f ms = none :=
      foldl_appendPair_fail f ms (pairIndices ms.length) (some [])
        ⟨ms.length - 1, hmem, hfail⟩
    exact ⟨hserial, by rw [← serialMatmul_eq_processPoolMatmul]; exact hserial⟩
  · rw [threadedMatmul_getElem? f ms W hW i hi]
    have h2 : i * 2 < ms.length := by omega
    have h3 : i * 2 + 1 < ms.length := by omega
    simp [List.getElem?_eq_getElem, h2, h3]
  · have hall : ∀ i ∈ pairIndices ms.length, i + 1 < ms.length := by
      intro i hi
      rw [pairIndices, mem_rangeStep _ _ _ _ (by omega)] at hi
      omega
    obtain ⟨out, hout, hlen⟩ :=
      foldl_appendPair_success f ms (pairIndices ms.length) [] hall
    refine ⟨out, hout, by rw [← serialMatmul_eq_processPoolMatmul]; exact hout, ?_⟩
    rw [hlen, length_pairIndices]
    simp only [List.length_nil]
    omega

/-- Concrete instance of the amended C9: on the odd-length input
`[1, 2, 3]` both the serial and the process-pool strategies raise
IndexError. -/
theorem C9_amended_matmul_odd_even_witness :
    serialMatmul (fun a b : Nat => a + b) [1, 2, 3] = none ∧
      processPoolMatmul (fun a b : Nat => a + b) [1, 2, 3] = none :=
  (C9_amended_matmul_odd_even (fun a b : Nat => a + b) [1, 2, 3] 1
    (by decide)).1 (by decide)
/-- src/benchmarks/num_threads.py fibonacci, on mathematical integers:
`if n <= 0: return 0; elif n == 1: return 1;
else: return fibonacci(n-1) + fibonacci(n-2)`.  The recursion terminates
for every integer because `toNat` of the argument strictly decreases on
the recursive branch. -/
def fibonacci (n : Int) : Int :=
  if n ≤ 0 then 0
  else if n = 1 then 1
  else fibonacci (n - 1) + fibonacci (n - 2)
termination_by n.toNat
decreasing_by
  all_goals omega

/-- The threaded strategy with any worker count `W ≥ 1` fully populates
input order: it equals the serial map wrapped in Some. -/
theorem threadedRun_eq_map (f : α → β) (tasks : List α) (W : Nat)
    (hW : 1 ≤ W) :
    threadedRun f tasks W = (tasks.map f).map some := by
  apply List.ext_getElem?
  intro j
  by_cases hj : j < tasks.length
  · rw [threadedRun_getElem? f tasks W hW j hj]
    rw [List.getElem?_map, List.getElem?_map]
    simp [List.getElem?_eq_getElem, hj]
  · rw [List.getElem?_eq_none, List.getElem?_eq_none]
    · simp only [List.length_map]
      omega
    · rw [threadedRun_length]
      omega

/-- C10: the fibonacci task body is a total deterministic function on all
integers — 0 for every `n ≤ 0`, 1 at 1, and the sum of the two previous
values for every `n ≥ 2` — so a fixed input list yields the same result
list under the serial strategy and under the threaded strategy with any
worker count. -/
theorem C10_fibonacci_total_deterministic (n : Int) :
    (n ≤ 0 → fibonacci n = 0) ∧
    fibonacci 1 = 1 ∧
    (2 ≤ n → fibonacci n = fibonacci (n - 1) + fibonacci (n - 2)) ∧
    (∀ (vals : List Int) (W : Nat), 1 ≤ W →
      serialRun fibonacci vals = vals.map fibonacci ∧
      threadedRun fibonacci vals W = (vals.map fibonacci).map some) := by
  refine ⟨fun h => ?_, ?_, fun h => ?_, fun vals W hW =>
    ⟨serialRun_eq_map fibonacci vals, threadedRun_eq_map fibonacci vals W hW⟩⟩
  · rw [fibonacci]
    rw [if_pos h]
  · rw [fibonacci]
    norm_num
  · conv_lhs => rw [fibonacci]
    rw [if_neg (by omega), if_neg (by omega)]

/-- Concrete instance of C10: fibonacci is 0 at -2, satisfies the
recurrence at 10, and the serial strategy on `[5]` is the fibonacci map. -/
theorem C10_fibonacci_total_deterministic_witness :
    fibonacci (-2) = 0 ∧
      fibonacci 10 = fibonacci (10 - 1) + fibonacci (10 - 2) ∧
      serialRun fibonacci [5] = [5].map fibonacci :=
  ⟨(C10_fibonacci_total_deterministic (-2)).1 (by decide),
    (C10_fibonacci_total_deterministic 10).2.2.1 (by decide),
    ((C10_fibonacci_total_deterministic 0).2.2.2 [5] 1 (by decide)).1⟩
